import Mathlib

/-!
Verification of the handwriting-to-font pipeline
(`src/backend/pipeline/{preprocess,segment,vectorize,fontgen}.py`).

The Python code is shallowly embedded: pure functions become Lean
functions, machine integers become `ℤ`/`ℕ`, Python floats become exact
rationals `ℚ` (the quantities compared in the source are ratios of
integers with small denominators, where exact rational comparison and
the float comparison of the source agree away from sub-epsilon
boundaries), `round` becomes round-half-to-even on `ℚ` (Python 3
semantics), and fallible code returns `Except`.  OpenCV library
routines (contour tracing, polygon simplification) are not code of the
repository; where a repository function consumes their output, that
output is an explicit argument of the embedded function.
-/

namespace HandFont

/-- Python 3 `round` on a rational: round half to even (banker's rounding). -/
def pyRound (q : ℚ) : ℤ :=
  let f : ℤ := ⌊q⌋
  let r : ℚ := q - f
  if r < 1/2 then f
  else if 1/2 < r then f + 1
  else if Even f then f else f + 1

theorem pyRound_nonneg {q : ℚ} (hq : 0 ≤ q) : 0 ≤ pyRound q := by
  have hf : (0 : ℤ) ≤ ⌊q⌋ := Int.floor_nonneg.mpr hq
  unfold pyRound
  dsimp only
  split
  · exact hf
  · split
    · omega
    · split
      · exact hf
      · omega

/-! ## Vectorizer (`src/backend/pipeline/vectorize.py`) -/

/-- `UNITS_PER_EM = 1000` (vectorize.py line 8). -/
def UNITS_PER_EM : ℤ := 1000

/-- `ASCENDER = 800` (vectorize.py line 9). -/
def ASCENDER : ℤ := 800

/-- `DESCENDER = -200` (vectorize.py line 10). -/
def DESCENDER : ℤ := -200

/-- `cv2.boundingRect` on a point list: `(min x, min y, width, height)`
with inclusive integer width/height (`max - min + 1`).
Models the `cv2.boundingRect(np.vstack(contours))` calls. -/
def boundingRect (pts : List (ℤ × ℤ)) : ℤ × ℤ × ℤ × ℤ :=
  match pts with
  | [] => (0, 0, 0, 0)
  | p :: rest =>
      let minX := rest.foldl (fun a q => min a q.1) p.1
      let minY := rest.foldl (fun a q => min a q.2) p.2
      let maxX := rest.foldl (fun a q => max a q.1) p.1
      let maxY := rest.foldl (fun a q => max a q.2) p.2
      (minX, minY, maxX - minX + 1, maxY - minY + 1)

theorem foldl_min_le_foldl_max (l : List (ℤ × ℤ)) (f : ℤ × ℤ → ℤ) :
    ∀ a b : ℤ, a ≤ b →
      l.foldl (fun a q => min a (f q)) a ≤ l.foldl (fun a q => max a (f q)) b := by
  induction l with
  | nil => intro a b h; simpa using h
  | cons q t ih =>
      intro a b h
      simp only [List.foldl_cons]
      exact ih _ _ (le_trans (min_le_left _ _) (le_trans h (le_max_left _ _)))

/-- For a nonempty point list the bounding-box width and height are ≥ 1. -/
theorem boundingRect_pos (pts : List (ℤ × ℤ)) (h : pts ≠ []) :
    1 ≤ (boundingRect pts).2.2.1 ∧ 1 ≤ (boundingRect pts).2.2.2 := by
  match pts with
  | [] => exact absurd rfl h
  | p :: rest =>
      constructor
      · have := foldl_min_le_foldl_max rest (fun q => q.1) p.1 p.1 le_rfl
        simp only [] at this
        simp only [boundingRect]
        omega
      · have := foldl_min_le_foldl_max rest (fun q => q.2) p.2 p.2 le_rfl
        simp only [] at this
        simp only [boundingRect]
        omega

/-- One contour path of a glyph: the `{"points": ..., "is_hole": ...}`
dict built in `contours_to_font_paths`. -/
structure FontPath where
  points : List (ℤ × ℤ)
  is_hole : Bool
deriving DecidableEq, Repr

/-- Cross term of the shoelace sum. -/
def cross (a b : ℤ × ℤ) : ℤ := a.1 * b.2 - b.1 * a.2

/-- Twice the signed shoelace area: the loop of `polygon_area`
(vectorize.py lines 96-101) before the final division by 2. -/
def twiceArea (ps : List (ℤ × ℤ)) : ℤ :=
  ∑ i ∈ Finset.range ps.length,
    cross (ps.getD i (0, 0)) (ps.getD ((i + 1) % ps.length) (0, 0))

/-- `polygon_area` (vectorize.py lines 94-102): signed area,
positive = counter-clockwise, negative = clockwise. -/
def polygon_area (ps : List (ℤ × ℤ)) : ℚ := (twiceArea ps : ℚ) / 2

/-- The winding-enforcement step of `contours_to_font_paths`
(vectorize.py lines 79-84): reverse the point order when the computed
sign of the signed area disagrees with the hole/outer tag. -/
def enforceWinding (isHole : Bool) (transformed : List (ℤ × ℤ)) : List (ℤ × ℤ) :=
  if (isHole = false ∧ 0 < polygon_area transformed)
      ∨ (isHole = true ∧ polygon_area transformed < 0) then
    transformed.reverse
  else transformed

/-- The per-contour body of the loop of `contours_to_font_paths`
(vectorize.py lines 52-89): skip short contours, simplify with
`approx` (standing for `cv2.approxPolyDP · 0.5 True`), skip
over-simplified contours, read the hole flag from the hierarchy parent
entry, transform the points into font units, and enforce the winding
convention. -/
def contourToPath (approx : List (ℤ × ℤ) → List (ℤ × ℤ)) (hier : List ℤ)
    (bx byy : ℤ) (scale : ℚ) (ic : ℕ × List (ℤ × ℤ)) : Option FontPath :=
  if ic.2.length < 3 then none
  else
    let ap := approx ic.2
    if ap.length < 3 then none
    else
      let isHole : Bool := hier.getD ic.1 (-1) ≠ -1
      let transformed := ap.map fun p =>
        (pyRound (((p.1 - bx : ℤ) : ℚ) * scale),
         pyRound (((ASCENDER - DESCENDER : ℤ) : ℚ) - ((p.2 - byy : ℤ) : ℚ) * scale
           + (DESCENDER : ℚ)))
      some ⟨enforceWinding isHole transformed, isHole⟩

/-- `contours_to_font_paths` (vectorize.py lines 24-91).
`approx` stands for `cv2.approxPolyDP · 0.5 True` (library polygon
simplification), `hier` for the parent entries `hierarchy[0][·][3]` of
`cv2.findContours`; both are produced outside the repository. -/
def contours_to_font_paths (approx : List (ℤ × ℤ) → List (ℤ × ℤ))
    (contours : List (List (ℤ × ℤ))) (hier : List ℤ) : List FontPath :=
  if contours = [] then []
  else
    let r := boundingRect contours.flatten
    if r.2.2.1 = 0 ∨ r.2.2.2 = 0 then []
    else
      let scale : ℚ := ((ASCENDER - DESCENDER : ℤ) : ℚ) / (max r.2.2.2 1 : ℤ)
      contours.enum.filterMap (contourToPath approx hier r.1 r.2.1 scale)

/-- The glyph record returned by `process_glyph_bitmap`. -/
structure GlyphData where
  paths : List FontPath
  advance_width : ℤ
  lsb : ℤ
deriving DecidableEq, Repr

/-- `process_glyph_bitmap` (vectorize.py lines 125-161).
`trace` stands for `bitmap_to_contours`, i.e. the
`cv2.findContours(..., RETR_CCOMP, CHAIN_APPROX_TC89_L1)` library call
(`none` models a `None` hierarchy); `approx` stands for
`cv2.approxPolyDP`. -/
def process_glyph_bitmap {Img : Type}
    (trace : Img → List (List (ℤ × ℤ)) × Option (List ℤ))
    (approx : List (ℤ × ℤ) → List (ℤ × ℤ)) (m : Img) : GlyphData :=
  let tr := trace m
  let contours := tr.1
  match tr.2 with
  | none => ⟨[], pyRound ((UNITS_PER_EM : ℚ) * (5/10)), 0⟩
  | some hier =>
      if contours = [] then ⟨[], pyRound ((UNITS_PER_EM : ℚ) * (5/10)), 0⟩
      else
        let paths := contours_to_font_paths approx contours hier
        let r := boundingRect contours.flatten
        let bw := r.2.2.1
        let bh := r.2.2.2
        let scale : ℚ := ((ASCENDER - DESCENDER : ℤ) : ℚ) / (max bh 1 : ℤ)
        let raw_width := pyRound ((bw : ℚ) * scale)
        let bearing := pyRound ((raw_width : ℚ) * (12/100))
        let advance_width := raw_width + bearing * 2
        let shifted := paths.map fun pg =>
          ⟨pg.points.map fun p => (p.1 + bearing, p.2), pg.is_hole⟩
        ⟨shifted, advance_width, bearing⟩

/-- Stable insertion of `x` into a sorted list: `x` goes after every
element whose key is ≤ its own. -/
def insertSorted {α β : Type} [LinearOrder β] (key : α → β) (x : α) :
    List α → List α
  | [] => [x]
  | h :: t => if key x < key h then x :: h :: t else h :: insertSorted key x t

/-- Python `sorted` / `list.sort(key=...)`: the stable ascending sort
by a key (any stable ascending sort is the same function; this one is
structurally recursive). -/
def sortByKey {α β : Type} [LinearOrder β] (key : α → β) (l : List α) : List α :=
  l.foldl (fun acc x => insertSorted key x acc) []

/-! ## Font assembler (`src/backend/pipeline/fontgen.py`) -/

/-- Glyph names used by `create_font`: `.notdef`, `space`, and
`f"uni{ord(c):04X}"` for a supplied character with code point `c`
(the formatted name is determined by and determines `c`). -/
inductive GlyphName where
  | notdef
  | space
  | uni (c : ℕ)
deriving DecidableEq, Repr

/-- Python `str.islower()` for a one-character string, modelled on the
ASCII range (the repository only feeds ASCII letters). -/
def isLowerAscii (c : ℕ) : Bool := decide (97 ≤ c ∧ c ≤ 122)

/-- Python `str.upper()` on a single ASCII lowercase letter. -/
def toUpperAscii (c : ℕ) : ℕ := c - 32

/-- Last-write-wins association-list lookup: the read semantics of a
Python `dict` built by a sequence of `d[k] = v` assignments, the list
holding the assignments in program order. -/
def lookupLast {α : Type} (l : List (ℕ × α)) (k : ℕ) : Option α :=
  match l with
  | [] => none
  | e :: t =>
      match lookupLast t k with
      | some v => some v
      | none => if e.1 = k then some e.2 else none

/-- The cmap assignments of `create_font` (fontgen.py lines 42-48), in
program order: space first, then per supplied character its own code
point and, when it is lowercase, its uppercase code point. -/
def buildCmap (chars : List ℕ) : List (ℕ × GlyphName) :=
  (32, GlyphName.space) ::
    chars.flatMap fun c =>
      (c, GlyphName.uni c) ::
        (if isLowerAscii c then [(toUpperAscii c, GlyphName.uni c)] else [])

/-- The fixed `.notdef` hollow-rectangle geometry (fontgen.py lines 56-67). -/
def notdefContours : List (List (ℤ × ℤ)) :=
  [[(100, 0), (100, 700), (500, 700), (500, 0)],
   [(150, 50), (450, 50), (450, 650), (150, 650)]]

/-- Geometry drawn for one user glyph (fontgen.py lines 80-90): each
path with at least 3 points becomes one closed contour. -/
def glyphContours (g : GlyphData) : List (List (ℤ × ℤ)) :=
  g.paths.filterMap fun pg =>
    if pg.points.length < 3 then none else some pg.points

/-- The font data assembled by `create_font` before serialization:
glyph order, character map, glyph geometry and horizontal metrics. -/
structure FontData where
  glyphOrder : List GlyphName
  cmap : List (ℕ × GlyphName)
  glyf : List (GlyphName × List (List (ℤ × ℤ)))
  metrics : List (GlyphName × (ℤ × ℤ))
deriving DecidableEq, Repr

/-- `create_font` (fontgen.py lines 13-142), up to the external
fontTools serialization: the assembled tables. The input list is the
`glyphs` dict in insertion order. `create_font` has no failure path:
it returns an assembled font for every input, including the empty
mapping. -/
def create_font (glyphs : List (ℕ × GlyphData)) : FontData :=
  let sortedKeys := sortByKey id (glyphs.map Prod.fst)
  { glyphOrder := GlyphName.notdef :: GlyphName.space :: sortedKeys.map GlyphName.uni
    cmap := buildCmap (glyphs.map Prod.fst)
    glyf := (GlyphName.notdef, notdefContours) :: (GlyphName.space, []) ::
      sortedKeys.map fun c =>
        (GlyphName.uni c,
          match lookupLast glyphs c with
          | some g => glyphContours g
          | none => [])
    metrics := (GlyphName.notdef, (600, 100)) ::
      (GlyphName.space, (UNITS_PER_EM / 4, 0)) ::
      sortedKeys.map fun c =>
        (GlyphName.uni c,
          match lookupLast glyphs c with
          | some g => (g.advance_width, g.lsb)
          | none => (0, 0)) }

/-- `create_font_from_chars` (fontgen.py lines 145-168): vectorize
each character bitmap, keep only characters with non-empty paths, and
raise `ValueError` when nothing survives. -/
def create_font_from_chars {Img : Type}
    (trace : Img → List (List (ℤ × ℤ)) × Option (List ℤ))
    (approx : List (ℤ × ℤ) → List (ℤ × ℤ))
    (charBitmaps : List (ℕ × Img)) : Except String FontData :=
  let glyphs := charBitmaps.filterMap fun cb =>
    let g := process_glyph_bitmap trace approx cb.2
    if g.paths = [] then none else some (cb.1, g)
  if glyphs = [] then
    Except.error "No valid glyphs could be extracted from the provided images"
  else Except.ok (create_font glyphs)

/-! ## Segmenter (`src/backend/pipeline/segment.py`) -/

/-- A bounding box `(x, y, w, h)` as returned by `cv2.boundingRect`. -/
structure Box where
  x : ℤ
  y : ℤ
  w : ℤ
  h : ℤ
deriving DecidableEq, Repr

/-- The contour-validation prefix of `segment_characters` (segment.py
lines 25-38): fail when no contours were found, compute each contour's
bounding box, keep boxes with `w > 5 and h > 5`, and fail when none
survive. -/
def segment_validate (contours : List (List (ℤ × ℤ))) : Except String (List Box) :=
  if contours = [] then Except.error "No characters found in image"
  else
    let bboxes := (contours.map fun c =>
        let r := boundingRect c
        Box.mk r.1 r.2.1 r.2.2.1 r.2.2.2).filter
      fun b => decide (5 < b.w ∧ 5 < b.h)
    if bboxes = [] then Except.error "No valid character regions found"
    else Except.ok bboxes

/-- `sorted(heights)[len(heights) // 2]` (segment.py line 95): the
upper-median of a list of heights. -/
def medianOf (l : List ℤ) : ℤ :=
  (sortByKey id l).getD (l.length / 2) 0

/-- `x + w / 2`, the horizontal center of a box (Python true division). -/
def boxCenter (b : Box) : ℚ := (b.x : ℚ) + (b.w : ℚ) / 2

/-- `dist = y2 - (y1 + h1)` (segment.py line 120): vertical gap from
the bottom of `b1` to the top of `b2`. -/
def vertGap (b1 b2 : Box) : ℤ := b2.y - (b1.y + b1.h)

/-- The candidate-parent test of segment.py line 119:
`y2 > y1 and abs((x1 + w1 / 2) - (x2 + w2 / 2)) < w2`.
The second conjunct is that float comparison written exactly over `ℤ`
by multiplying through by 2 (halves of machine integers are exactly
representable floats, so the two forms agree). -/
def parentCond (b1 b2 : Box) : Prop :=
  b1.y < b2.y ∧ |2 * b1.x + b1.w - (2 * b2.x + b2.w)| < 2 * b2.w

instance instDecParentCond (b1 b2 : Box) : Decidable (parentCond b1 b2) := by
  unfold parentCond; infer_instance

/-- One iteration of the inner best-parent loop of
`merge_close_bboxes` (segment.py lines 115-123): skip `j == i` and
consumed boxes, test the parent condition, and take the candidate when
its gap is below `median_h * 0.8` (written exactly over `ℤ` as
`10 * d < 8 * m`) and strictly beats the best gap so far. -/
def scanStep (used : Finset ℕ) (i : ℕ) (b1 : Box) (m : ℤ)
    (acc : Option (ℕ × ℤ)) (jb : ℕ × Box) : Option (ℕ × ℤ) :=
  if jb.1 = i ∨ jb.1 ∈ used then acc
  else if parentCond b1 jb.2 then
    let d := vertGap b1 jb.2
    if (decide (10 * d < 8 * m) &&
        (match acc with
         | none => true
         | some x => decide (d < x.2))) = true then some (jb.1, d)
    else acc
  else acc

/-- The inner best-parent search of `merge_close_bboxes` (segment.py
lines 113-123): scan all boxes keeping the strictly closest qualifying
parent. Returns the chosen index with its gap. -/
def scanBest (sortedIndexed : List (ℕ × Box)) (used : Finset ℕ) (i : ℕ)
    (b1 : Box) (m : ℤ) : Option (ℕ × ℤ) :=
  sortedIndexed.foldl (scanStep used i b1 m) none

/-- The union bounding box built at segment.py lines 127-132. -/
def unionBox (a b : Box) : Box :=
  { x := min a.x b.x
    y := min a.y b.y
    w := max (a.x + a.w) (b.x + b.w) - min a.x b.x
    h := max (a.y + a.h) (b.y + b.h) - min a.y b.y }

/-- The Python `is_small` test (segment.py line 109):
`h1 < median_h * 0.4 and w1 < median_h * 0.4`, written exactly over
`ℤ` by multiplying through by 10. -/
def isSmallBox (m : ℤ) (b : Box) : Prop :=
  10 * b.h < 4 * m ∧ 10 * b.w < 4 * m

instance instDecIsSmallBox (m : ℤ) (b : Box) : Decidable (isSmallBox m b) := by
  unfold isSmallBox; infer_instance

/-- One iteration of the main loop of `merge_close_bboxes` (segment.py
lines 104-139), acting on the state (output list, consumed index set). -/
def mergeStep (boxes : List Box) (m : ℤ) (sortedIndexed : List (ℕ × Box))
    (st : List Box × Finset ℕ) (ib : ℕ × Box) : List Box × Finset ℕ :=
  if ib.1 ∈ st.2 then st
  else if isSmallBox m ib.2 then
    match scanBest sortedIndexed st.2 ib.1 ib.2 m with
    | some jd =>
        (st.1 ++ [unionBox ib.2 (boxes.getD jd.1 (Box.mk 0 0 0 0))],
         insert ib.1 (insert jd.1 st.2))
    | none => (st.1 ++ [ib.2], insert ib.1 st.2)
  else (st.1 ++ [ib.2], insert ib.1 st.2)

/-- `merge_close_bboxes` (segment.py lines 79-141): sort the indexed
boxes by `y` (stably), then run the dot-merge loop. -/
def merge_close_bboxes (boxes : List Box) : List Box :=
  if boxes = [] then boxes
  else
    let m := medianOf (boxes.map Box.h)
    let sortedIndexed := sortByKey (fun p => p.2.y) boxes.enum
    (sortedIndexed.foldl (mergeStep boxes m sortedIndexed) ([], ∅)).1

/-! ## Single-glyph extraction (`segment.py` lines 185-205) -/

/-- A grayscale raster: `rows × cols` grid of byte values, addressed
`pix row col`, reads outside the grid irrelevant to the embedding. -/
structure Mask where
  rows : ℕ
  cols : ℕ
  pix : ℕ → ℕ → ℕ

/-- The in-grid cells with a nonzero value: `cv2.findNonZero`. -/
def fgCells (m : Mask) : Finset (ℕ × ℕ) :=
  (Finset.range m.rows ×ˢ Finset.range m.cols).filter fun p => m.pix p.1 p.2 ≠ 0

/-- Topmost foreground row (the `y` of `cv2.boundingRect(coords)`). -/
def loY (m : Mask) : ℕ := ((fgCells m).image Prod.fst).min.untop' 0

/-- Bottommost foreground row. -/
def hiY (m : Mask) : ℕ := ((fgCells m).image Prod.fst).max.unbot' 0

/-- Leftmost foreground column (the `x` of `cv2.boundingRect(coords)`). -/
def loX (m : Mask) : ℕ := ((fgCells m).image Prod.snd).min.untop' 0

/-- Rightmost foreground column. -/
def hiX (m : Mask) : ℕ := ((fgCells m).image Prod.snd).max.unbot' 0

/-- `binary[y : y + h, x : x + w]`. -/
def cropMask (m : Mask) (y x h w : ℕ) : Mask :=
  ⟨h, w, fun i j => m.pix (y + i) (x + j)⟩

/-- `np.zeros((n, n), dtype=np.uint8)`. -/
def zerosMask (n : ℕ) : Mask := ⟨n, n, fun _ _ => 0⟩

/-- `canvas[oy : oy + h, ox : ox + w] = cropped`. -/
def pasteMask (canvas tile : Mask) (oy ox : ℕ) : Mask :=
  ⟨canvas.rows, canvas.cols, fun q r =>
    if oy ≤ q ∧ q < oy + tile.rows ∧ ox ≤ r ∧ r < ox + tile.cols then
      tile.pix (q - oy) (r - ox)
    else canvas.pix q r⟩

/-- The `w` of `cv2.boundingRect(coords)` in `extract_single_glyph`. -/
def contentW (m : Mask) : ℕ := hiX m - loX m + 1

/-- The `h` of `cv2.boundingRect(coords)` in `extract_single_glyph`. -/
def contentH (m : Mask) : ℕ := hiY m - loY m + 1

/-- `size = max(w, h) + 20` (segment.py line 199). -/
def canvasSide (m : Mask) : ℕ := max (contentW m) (contentH m) + 20

/-- `ox = (size - w) // 2` (segment.py line 201). -/
def offX (m : Mask) : ℕ := (canvasSide m - contentW m) / 2

/-- `oy = (size - h) // 2` (segment.py line 202). -/
def offY (m : Mask) : ℕ := (canvasSide m - contentH m) / 2

/-- `extract_single_glyph` (segment.py lines 185-205): return the mask
unchanged when it has no foreground, else crop to the foreground
bounding box and center the crop in a square canvas with 20 pixels of
total padding. -/
def extract_single_glyph (m : Mask) : Mask :=
  if fgCells m = ∅ then m
  else
    let cropped := cropMask m (loY m) (loX m) (contentH m) (contentW m)
    pasteMask (zerosMask (canvasSide m)) cropped (offY m) (offX m)

/-! ## Binarizer noise removal (`src/backend/pipeline/preprocess.py`) -/

/-- 8-connectivity adjacency of two distinct grid cells `(row, col)`. -/
def adjacent (p q : ℕ × ℕ) : Prop :=
  p ≠ q ∧ p.1 ≤ q.1 + 1 ∧ q.1 ≤ p.1 + 1 ∧ p.2 ≤ q.2 + 1 ∧ q.2 ≤ p.2 + 1

instance instDecAdjacent (p q : ℕ × ℕ) : Decidable (adjacent p q) := by
  unfold adjacent; infer_instance

/-- One expansion step of a region: add every foreground cell adjacent
to the region. -/
def grow (fg s : Finset (ℕ × ℕ)) : Finset (ℕ × ℕ) :=
  s ∪ fg.filter fun q => ∃ r ∈ s, adjacent r q

/-- The 8-connected component of `p` inside the foreground set `fg`:
the closure of `{p}` under `grow fg` (reached after at most `fg.card`
expansion steps). This is the pixel set that
`cv2.connectedComponentsWithStats(binary, connectivity=8)` labels with
`p`'s label, and whose size is that label's `CC_STAT_AREA`. -/
def component (fg : Finset (ℕ × ℕ)) (p : ℕ × ℕ) : Finset (ℕ × ℕ) :=
  (grow fg)^[fg.card] {p}

/-- `remove_small_components` (preprocess.py lines 52-59): keep
exactly the foreground pixels whose connected component has area at
least `minArea`. -/
def remove_small_components (minArea : ℕ) (fg : Finset (ℕ × ℕ)) : Finset (ℕ × ℕ) :=
  fg.filter fun p => minArea ≤ (component fg p).card

/-- `preprocess` (preprocess.py lines 18-49): the photo binarization
pipeline. `earlierStages` stands for the OpenCV grayscale / blur /
adaptive-threshold / morphological-close steps (lines 32-44), which
are library calls producing the foreground set handed to
`remove_small_components(cleaned, min_area=50)` (line 47). -/
def preprocess {Img : Type} (earlierStages : Img → Finset (ℕ × ℕ)) (img : Img) :
    Finset (ℕ × ℕ) :=
  remove_small_components 50 (earlierStages img)

/-! ## Claim C1: empty mapping reaching the font assembler -/

/-- Claim C1 counterexample: `create_font` called with the empty
mapping does not fail — it assembles a complete font containing only
the `.notdef` and `space` glyphs (so if anything serializes this font
data, binaries of a zero-content font are produced). -/
theorem c1_counterexample :
    create_font [] = FontData.mk [GlyphName.notdef, GlyphName.space]
      [(32, GlyphName.space)]
      [(GlyphName.notdef, notdefContours), (GlyphName.space, [])]
      [(GlyphName.notdef, (600, 100)), (GlyphName.space, (250, 0))] := by
  decide

/-- Claim C1 (amended): `create_font_from_chars` fails with the
`ValueError` "No valid glyphs could be extracted from the provided
images" whenever the supplied mapping is empty after filtering out
characters with no usable paths (in particular for the empty mapping);
`create_font` itself performs no such check. -/
theorem c1_amended {Img : Type}
    (trace : Img → List (List (ℤ × ℤ)) × Option (List ℤ))
    (approx : List (ℤ × ℤ) → List (ℤ × ℤ))
    (charBitmaps : List (ℕ × Img))
    (h : ∀ cb ∈ charBitmaps, (process_glyph_bitmap trace approx cb.2).paths = []) :
    create_font_from_chars trace approx charBitmaps =
      Except.error "No valid glyphs could be extracted from the provided images" := by
  unfold create_font_from_chars
  have hnil : (charBitmaps.filterMap fun cb =>
      let g := process_glyph_bitmap trace approx cb.2
      if g.paths = [] then none else some (cb.1, g)) = [] := by
    rw [List.filterMap_eq_nil_iff]
    intro cb hcb
    simp only [h cb hcb, if_pos]
  rw [hnil]
  rfl

/-- Claim C1 witness: a concrete call of `create_font_from_chars` on a
one-entry mapping whose bitmap vectorizes to no paths fails with the
`ValueError`. -/
theorem c1_witness :
    create_font_from_chars
        (fun _ : Unit => (([] : List (List (ℤ × ℤ))), (none : Option (List ℤ))))
        id [(97, ())] =
      Except.error "No valid glyphs could be extracted from the provided images" :=
  c1_amended _ id _ (by intro cb _; rfl)

/-! ## Claim C2: the minimum-dimension filter on a 6×6 box -/

/-- Claim C2 counterexample: a contour whose bounding box is exactly
6×6 pixels is NOT discarded by the `w > 5 and h > 5` filter — when it
is the only detected region, segmentation succeeds with that box
instead of failing. -/
theorem c2_counterexample :
    (boundingRect [((0 : ℤ), (0 : ℤ)), (5, 5)]).2.2.1 = 6 ∧
    (boundingRect [((0 : ℤ), (0 : ℤ)), (5, 5)]).2.2.2 = 6 ∧
    segment_validate [[(0, 0), (5, 5)]] = Except.ok [Box.mk 0 0 6 6] :=
  ⟨rfl, rfl, rfl⟩

/-- Claim C2 (amended): a detected region is discarded exactly when
its bounding box has width ≤ 5 or height ≤ 5 (so a 5×5 box is always
discarded while a 6×6 box survives); when every detected region is
such, segmentation fails with the `SegmentationError`
"No valid character regions found". -/
theorem c2_amended (contours : List (List (ℤ × ℤ)))
    (hne : contours ≠ [])
    (hsmall : ∀ c ∈ contours,
      (boundingRect c).2.2.1 ≤ 5 ∨ (boundingRect c).2.2.2 ≤ 5) :
    segment_validate contours = Except.error "No valid character regions found" := by
  unfold segment_validate
  rw [if_neg hne]
  have hfil : ((contours.map fun c =>
      let r := boundingRect c
      Box.mk r.1 r.2.1 r.2.2.1 r.2.2.2).filter
        fun b => decide (5 < b.w ∧ 5 < b.h)) = [] := by
    rw [List.filter_eq_nil_iff]
    intro b hb
    rcases List.mem_map.mp hb with ⟨c, hc, rfl⟩
    have := hsmall c hc
    simp only [decide_eq_true_eq, not_and, not_lt]
    omega
  rw [hfil]
  rfl

/-- Claim C2 witness: the single 5×5-pixel box is discarded and
segmentation fails. -/
theorem c2_witness :
    segment_validate [[(0, 0), (4, 4)]] =
      Except.error "No valid character regions found" :=
  c2_amended _ (by simp) (by decide)

/-! ## Claim C7: determinism of the vectorizer -/

/-- Claim C7: vectorization is deterministic — for identical input
masks, `process_glyph_bitmap` produces identical output (same paths,
same advance width, same left side bearing). In the embedding the
whole pipeline, including the fixed contour tracer and simplifier it
is given, is a function of the mask; the repository code contains no
source of nondeterminism (no randomness, time, or concurrency). -/
theorem c7_determinism {Img : Type}
    (trace : Img → List (List (ℤ × ℤ)) × Option (List ℤ))
    (approx : List (ℤ × ℤ) → List (ℤ × ℤ))
    (m1 m2 : Img) (h : m1 = m2) :
    process_glyph_bitmap trace approx m1 = process_glyph_bitmap trace approx m2 := by
  rw [h]

/-- Claim C7 witness: determinism at a concrete mask and tracer. -/
theorem c7_witness :
    process_glyph_bitmap
        (fun _ : Unit => (([[(0, 0), (0, 9), (9, 9), (9, 0)]] : List (List (ℤ × ℤ))),
          some ([-1] : List ℤ))) id () =
      process_glyph_bitmap
        (fun _ : Unit => (([[(0, 0), (0, 9), (9, 9), (9, 0)]] : List (List (ℤ × ℤ))),
          some ([-1] : List ℤ))) id () :=
  c7_determinism _ id () () rfl

/-! ## Claim C3: advance width and left side bearing -/

/-- The scaled ink width `raw_width = round(bw * scale)` computed at
vectorize.py lines 145-149 from the combined contour bounding box. -/
def rawWidthOf (contours : List (List (ℤ × ℤ))) : ℤ :=
  pyRound (((boundingRect contours.flatten).2.2.1 : ℚ) *
    (((ASCENDER - DESCENDER : ℤ) : ℚ) /
      ((max (boundingRect contours.flatten).2.2.2 1 : ℤ) : ℚ)))

theorem rawWidthOf_nonneg (contours : List (List (ℤ × ℤ)))
    (hne : contours.flatten ≠ []) : 0 ≤ rawWidthOf contours := by
  apply pyRound_nonneg
  have hbw := (boundingRect_pos contours.flatten hne).1
  apply mul_nonneg
  · exact_mod_cast le_trans zero_le_one hbw
  · apply div_nonneg
    · norm_num [ASCENDER, DESCENDER]
    · have : (1 : ℤ) ≤ max (boundingRect contours.flatten).2.2.2 1 := le_max_right _ _
      exact_mod_cast le_trans zero_le_one this

/-- Claim C3: for every mask whose contour tracing yields at least one
contour (with hierarchy), the vectorizer computes
`left_side_bearing = round(0.12 × scaled ink width)` and
`advance_width = scaled ink width + 2 × left_side_bearing`;
consequently `advance_width ≥` the scaled (raw) ink width and
`left_side_bearing ≥ 0`. -/
theorem c3_metrics {Img : Type}
    (trace : Img → List (List (ℤ × ℤ)) × Option (List ℤ))
    (approx : List (ℤ × ℤ) → List (ℤ × ℤ)) (m : Img)
    (contours : List (List (ℤ × ℤ))) (hier : List ℤ)
    (htr : trace m = (contours, some hier))
    (hne : contours.flatten ≠ []) :
    (process_glyph_bitmap trace approx m).lsb
        = pyRound ((rawWidthOf contours : ℚ) * (12/100)) ∧
    (process_glyph_bitmap trace approx m).advance_width
        = rawWidthOf contours + 2 * (process_glyph_bitmap trace approx m).lsb ∧
    rawWidthOf contours ≤ (process_glyph_bitmap trace approx m).advance_width ∧
    0 ≤ (process_glyph_bitmap trace approx m).lsb := by
  have hc : contours ≠ [] := by
    intro hcon
    rw [hcon] at hne
    exact hne rfl
  have hb : 0 ≤ pyRound ((rawWidthOf contours : ℚ) * (12/100)) := by
    apply pyRound_nonneg
    apply mul_nonneg
    · exact_mod_cast rawWidthOf_nonneg contours hne
    · norm_num
  simp only [process_glyph_bitmap, htr, if_neg hc, rawWidthOf]
  refine ⟨by trivial, by ring, ?_, hb⟩
  have := rawWidthOf_nonneg contours hne
  simp only [rawWidthOf] at this hb
  omega

/-- Claim C3 witness: the metrics equations at a concrete traced
contour (a 10×10-pixel square: scaled ink width 1000, bearing 120,
advance width 1240). -/
theorem c3_witness :
    (process_glyph_bitmap
        (fun _ : Unit => (([[(0, 0), (0, 9), (9, 9), (9, 0)]] : List (List (ℤ × ℤ))),
          some ([-1] : List ℤ))) id ()).lsb
        = pyRound ((rawWidthOf [[(0, 0), (0, 9), (9, 9), (9, 0)]] : ℚ) * (12/100)) ∧
    (process_glyph_bitmap
        (fun _ : Unit => (([[(0, 0), (0, 9), (9, 9), (9, 0)]] : List (List (ℤ × ℤ))),
          some ([-1] : List ℤ))) id ()).advance_width
        = rawWidthOf [[(0, 0), (0, 9), (9, 9), (9, 0)]] +
          2 * (process_glyph_bitmap
        (fun _ : Unit => (([[(0, 0), (0, 9), (9, 9), (9, 0)]] : List (List (ℤ × ℤ))),
          some ([-1] : List ℤ))) id ()).lsb ∧
    rawWidthOf [[(0, 0), (0, 9), (9, 9), (9, 0)]]
        ≤ (process_glyph_bitmap
        (fun _ : Unit => (([[(0, 0), (0, 9), (9, 9), (9, 0)]] : List (List (ℤ × ℤ))),
          some ([-1] : List ℤ))) id ()).advance_width ∧
    0 ≤ (process_glyph_bitmap
        (fun _ : Unit => (([[(0, 0), (0, 9), (9, 9), (9, 0)]] : List (List (ℤ × ℤ))),
          some ([-1] : List ℤ))) id ()).lsb :=
  c3_metrics _ id () [[(0, 0), (0, 9), (9, 9), (9, 0)]] [-1] rfl (by decide)

/-! ## Claim C6: uppercase / lowercase / space character mapping -/

theorem lookupLast_append {α : Type} (l1 l2 : List (ℕ × α)) (k : ℕ) :
    lookupLast (l1 ++ l2) k =
      match lookupLast l2 k with
      | some v => some v
      | none => lookupLast l1 k := by
  induction l1 with
  | nil =>
      cases h : lookupLast l2 k <;> simp [lookupLast, h]
  | cons e t ih =>
      cases h : lookupLast l2 k <;>
        simp only [List.cons_append, lookupLast, List.append_eq, ih, h]

theorem lookupLast_eq_none {α : Type} (l : List (ℕ × α)) (k : ℕ)
    (h : ∀ e ∈ l, e.1 ≠ k) : lookupLast l k = none := by
  induction l with
  | nil => rfl
  | cons e t ih =>
      simp only [lookupLast]
      rw [ih fun x hx => h x (List.mem_cons_of_mem e hx)]
      simp [h e (List.mem_cons_self e t)]

/-- Keys appearing in the cmap block of one supplied character `d` are
`d` itself and, when `d` is lowercase, `d - 32`. -/
theorem cmapBlock_keys (d : ℕ) (e : ℕ × GlyphName)
    (he : e ∈ (d, GlyphName.uni d) ::
      (if isLowerAscii d then [(toUpperAscii d, GlyphName.uni d)] else [])) :
    e.1 = d ∨ (isLowerAscii d = true ∧ e.1 = d - 32) := by
  rcases List.mem_cons.mp he with rfl | he2
  · left; rfl
  · by_cases hd : isLowerAscii d = true
    · rw [if_pos hd] at he2
      rcases List.mem_singleton.mp he2 with rfl
      right; exact ⟨hd, rfl⟩
    · rw [if_neg hd] at he2
      exact absurd he2 (List.not_mem_nil e)

/-- In a list whose middle block resolves key `k` to `v` and whose
tail blocks do not mention `k`, last-write-wins lookup returns `v`. -/
theorem lookupLast_mid {α : Type} (x : ℕ × α) (A fc B : List (ℕ × α)) (k : ℕ) (v : α)
    (hfc : lookupLast fc k = some v) (hB : lookupLast B k = none) :
    lookupLast (x :: (A ++ (fc ++ B))) k = some v := by
  simp only [lookupLast, lookupLast_append, hB, hfc]

/-- Claim C6 (amended): provided every supplied character is an ASCII
lowercase letter (as the pipeline guarantees), the assembled character
map sends each supplied character's code point and its uppercase code
point to the same glyph record, and sends the space code point to the
space glyph. -/
theorem c6_amended (glyphs : List (ℕ × GlyphData))
    (hnd : (glyphs.map Prod.fst).Nodup)
    (hlow : ∀ c ∈ glyphs.map Prod.fst, 97 ≤ c ∧ c ≤ 122) :
    lookupLast (create_font glyphs).cmap 32 = some GlyphName.space ∧
    ∀ c ∈ glyphs.map Prod.fst,
      lookupLast (create_font glyphs).cmap c = some (GlyphName.uni c) ∧
      lookupLast (create_font glyphs).cmap (toUpperAscii c) = some (GlyphName.uni c) := by
  have hcm : (create_font glyphs).cmap = buildCmap (glyphs.map Prod.fst) := rfl
  rw [hcm]
  set chars := glyphs.map Prod.fst with hchars
  constructor
  · have hnone : lookupLast (chars.flatMap fun c =>
        (c, GlyphName.uni c) ::
          (if isLowerAscii c then [(toUpperAscii c, GlyphName.uni c)] else [])) 32 = none := by
      apply lookupLast_eq_none
      intro e he
      rcases List.mem_flatMap.mp he with ⟨d, hd, hed⟩
      have hd97 := hlow d hd
      rcases cmapBlock_keys d e hed with h1 | ⟨_, h1⟩ <;> omega
    simp only [buildCmap, lookupLast, hnone, if_true]
  · intro c hc
    have hc97 := hlow c hc
    have hlowc : isLowerAscii c = true := by
      unfold isLowerAscii
      exact decide_eq_true hc97
    rcases List.append_of_mem hc with ⟨pre, post, hsplit⟩
    have hnd2 : (pre ++ c :: post).Nodup := hsplit ▸ hnd
    have hcpost : c ∉ post :=
      (List.nodup_cons.mp hnd2.of_append_right).1
    have hmempost : ∀ d ∈ post, 97 ≤ d ∧ d ≤ 122 := by
      intro d hd
      apply hlow
      rw [hsplit]
      exact List.mem_append_right _ (List.mem_cons_of_mem _ hd)
    have hfc : ((c, GlyphName.uni c) ::
        (if isLowerAscii c then [(toUpperAscii c, GlyphName.uni c)] else [])) =
        [(c, GlyphName.uni c), (toUpperAscii c, GlyphName.uni c)] := by
      rw [if_pos hlowc]
    have hBnone : ∀ k : ℕ, (∀ d ∈ post, d ≠ k ∧ d - 32 ≠ k) →
        lookupLast (post.flatMap fun d =>
          (d, GlyphName.uni d) ::
            (if isLowerAscii d then [(toUpperAscii d, GlyphName.uni d)] else [])) k = none := by
      intro k hk
      apply lookupLast_eq_none
      intro e he
      rcases List.mem_flatMap.mp he with ⟨d, hd, hed⟩
      rcases cmapBlock_keys d e hed with h1 | ⟨_, h1⟩
      · rw [h1]; exact (hk d hd).1
      · rw [h1]; exact (hk d hd).2
    have hself : lookupLast
        [(c, GlyphName.uni c), (toUpperAscii c, GlyphName.uni c)] c =
        some (GlyphName.uni c) := by
      have hne : toUpperAscii c ≠ c := by unfold toUpperAscii; omega
      simp [lookupLast, hne]
    have hupper : lookupLast
        [(c, GlyphName.uni c), (toUpperAscii c, GlyphName.uni c)] (toUpperAscii c) =
        some (GlyphName.uni c) := by
      simp [lookupLast]
    rw [hsplit]
    simp only [buildCmap, List.flatMap_append, List.flatMap_cons, hfc]
    constructor
    · apply lookupLast_mid _ _ _ _ _ _ hself
      apply hBnone
      intro d hd
      have := hmempost d hd
      constructor
      · intro hdc; exact hcpost (hdc ▸ hd)
      · omega
    · apply lookupLast_mid _ _ _ _ _ _ hupper
      apply hBnone
      intro d hd
      have hd97 := hmempost d hd
      have hcd : d ≠ c := fun hdc => hcpost (hdc ▸ hd)
      unfold toUpperAscii
      omega

/-- Claim C6 counterexample: when the supplied character is uppercase
`A` (code point 65) — which `create_font` accepts — the uppercase code
point 65 is mapped but the lowercase code point 97 is not mapped at
all, so the uppercase and lowercase code points do not map to the same
glyph record. -/
theorem c6_counterexample :
    lookupLast (create_font [(65, GlyphData.mk [] 500 0)]).cmap 65
        = some (GlyphName.uni 65) ∧
    lookupLast (create_font [(65, GlyphData.mk [] 500 0)]).cmap 97 = none := by
  decide

/-- Claim C6 witness: the amended mapping property at the concrete
one-character mapping for `a` (code point 97). -/
theorem c6_witness :
    lookupLast (create_font [(97, GlyphData.mk [] 500 0)]).cmap 32
        = some GlyphName.space ∧
    ∀ c ∈ ([(97, GlyphData.mk [] 500 0)].map Prod.fst),
      lookupLast (create_font [(97, GlyphData.mk [] 500 0)]).cmap c
          = some (GlyphName.uni c) ∧
      lookupLast (create_font [(97, GlyphData.mk [] 500 0)]).cmap (toUpperAscii c)
          = some (GlyphName.uni c) :=
  c6_amended [(97, GlyphData.mk [] 500 0)] (by decide) (by decide)

/-! ## Claim C5: the dot-merge pass -/

theorem mem_insertSorted {α β : Type} [LinearOrder β] (key : α → β) (y x : α)
    (l : List α) : x ∈ insertSorted key y l ↔ x = y ∨ x ∈ l := by
  induction l with
  | nil => simp [insertSorted]
  | cons h t ih =>
      simp only [insertSorted]
      split
      · simp [List.mem_cons]
      · simp only [List.mem_cons, ih]
        tauto

theorem foldl_insertSorted_mem {α β : Type} [LinearOrder β] (key : α → β) (x : α) :
    ∀ (l acc : List α),
      x ∈ l.foldl (fun acc y => insertSorted key y acc) acc ↔ x ∈ acc ∨ x ∈ l := by
  intro l
  induction l with
  | nil => intro acc; simp
  | cons e t ih =>
      intro acc
      rw [List.foldl_cons, ih, mem_insertSorted]
      simp only [List.mem_cons]
      tauto

theorem mem_sortByKey {α β : Type} [LinearOrder β] (key : α → β) (l : List α)
    (x : α) : x ∈ sortByKey key l ↔ x ∈ l := by
  rw [sortByKey, foldl_insertSorted_mem]
  simp

/-- In `merge_close_bboxes` the y-sorted indexed list pairs each index
with the box at that index of the original list. -/
theorem sortedIndexed_getD (boxes : List Box) (p : ℕ × Box)
    (hp : p ∈ sortByKey (fun q => q.2.y) boxes.enum) :
    boxes.getD p.1 (Box.mk 0 0 0 0) = p.2 := by
  rcases p with ⟨i, b⟩
  rw [mem_sortByKey] at hp
  have h := List.mem_enum hp
  rw [List.getD_eq_getElem _ _ h.1]
  exact h.2.symm

theorem scanStep_cases (used : Finset ℕ) (i : ℕ) (b1 : Box) (m : ℤ)
    (acc : Option (ℕ × ℤ)) (e : ℕ × Box) :
    scanStep used i b1 m acc e = acc ∨
    (e.1 ≠ i ∧ e.1 ∉ used ∧ parentCond b1 e.2 ∧ 10 * vertGap b1 e.2 < 8 * m ∧
      scanStep used i b1 m acc e = some (e.1, vertGap b1 e.2) ∧
      ∀ j0 d0, acc = some (j0, d0) → vertGap b1 e.2 < d0) := by
  simp only [scanStep]
  by_cases h1 : e.1 = i ∨ e.1 ∈ used
  · rw [if_pos h1]; exact Or.inl rfl
  · rw [if_neg h1]
    by_cases h2 : parentCond b1 e.2
    · rw [if_pos h2]
      by_cases h3 : (decide (10 * vertGap b1 e.2 < 8 * m) &&
          (match acc with
           | none => true
           | some x => decide (vertGap b1 e.2 < x.2))) = true
      · rw [if_pos h3]
        rw [Bool.and_eq_true] at h3
        rcases not_or.mp h1 with ⟨hne, hnu⟩
        refine Or.inr ⟨hne, hnu, h2, of_decide_eq_true h3.1, rfl, ?_⟩
        intro j0 d0 hacc
        rw [hacc] at h3
        exact of_decide_eq_true h3.2
      · rw [if_neg h3]; exact Or.inl rfl
    · rw [if_neg h2]; exact Or.inl rfl

theorem scanStep_valid (used : Finset ℕ) (i : ℕ) (b1 : Box) (m : ℤ)
    (acc : Option (ℕ × ℤ)) (e : ℕ × Box)
    (h1 : ¬(e.1 = i ∨ e.1 ∈ used)) (h2 : parentCond b1 e.2)
    (hth : 10 * vertGap b1 e.2 < 8 * m) :
    scanStep used i b1 m acc e = some (e.1, vertGap b1 e.2) ∨
    ∃ j0 d0, acc = some (j0, d0) ∧ d0 ≤ vertGap b1 e.2 ∧
      scanStep used i b1 m acc e = acc := by
  simp only [scanStep, if_neg h1, if_pos h2]
  cases acc with
  | none =>
      left
      simp [hth]
  | some x =>
      by_cases h4 : vertGap b1 e.2 < x.2
      · left
        simp [hth, h4]
      · right
        refine ⟨x.1, x.2, rfl, by omega, ?_⟩
        simp [hth, h4]

theorem scanFold_spec (used : Finset ℕ) (i : ℕ) (b1 : Box) (m : ℤ) :
    ∀ (l : List (ℕ × Box)) (acc : Option (ℕ × ℤ)),
      (∀ j d, l.foldl (scanStep used i b1 m) acc = some (j, d) →
          acc = some (j, d) ∨
          (j ≠ i ∧ j ∉ used ∧ ∃ b2, (j, b2) ∈ l ∧ parentCond b1 b2 ∧
            d = vertGap b1 b2 ∧ 10 * d < 8 * m)) ∧
      (∀ j d j0 d0, l.foldl (scanStep used i b1 m) acc = some (j, d) →
          acc = some (j0, d0) → d ≤ d0) ∧
      (∀ j d, l.foldl (scanStep used i b1 m) acc = some (j, d) →
          ∀ k bk, (k, bk) ∈ l → k ≠ i → k ∉ used → parentCond b1 bk →
            10 * vertGap b1 bk < 8 * m → d ≤ vertGap b1 bk) := by
  intro l
  induction l with
  | nil =>
      intro acc
      refine ⟨fun j d h => Or.inl h, ?_, ?_⟩
      · intro j d j0 d0 h hacc
        rw [List.foldl_nil] at h
        rw [h] at hacc
        simp only [Option.some.injEq, Prod.mk.injEq] at hacc
        omega
      · intro j d _ k bk hk
        exact absurd hk (List.not_mem_nil _)
  | cons e t ih =>
      intro acc
      have hfold : (e :: t).foldl (scanStep used i b1 m) acc
          = t.foldl (scanStep used i b1 m) (scanStep used i b1 m acc e) := rfl
      obtain ⟨ih1, ih2, ih3⟩ := ih (scanStep used i b1 m acc e)
      rcases scanStep_cases used i b1 m acc e with hA |
        ⟨hne, hnu, hpc, hth, hB, hBacc⟩
      · -- element skipped or not better: accumulator unchanged
        refine ⟨?_, ?_, ?_⟩
        · intro j d h
          rw [hfold] at h
          rcases ih1 j d h with hacc | ⟨hji, hju, b2, hb2, rest⟩
          · rw [hA] at hacc
            exact Or.inl hacc
          · exact Or.inr ⟨hji, hju, b2, List.mem_cons_of_mem e hb2, rest⟩
        · intro j d j0 d0 h hacc
          rw [hfold] at h
          exact ih2 j d j0 d0 h (hA.trans hacc)
        · intro j d h k bk hk hki hku hpk hthk
          rw [hfold] at h
          rcases List.mem_cons.mp hk with heq | hkt
          · -- the candidate is e itself
            have hke : e.1 = k ∧ e.2 = bk := by
              rw [← heq]
              exact ⟨rfl, rfl⟩
            have h1' : ¬(e.1 = i ∨ e.1 ∈ used) := by
              rw [not_or, hke.1]
              exact ⟨hki, hku⟩
            have hpc' : parentCond b1 e.2 := hke.2 ▸ hpk
            have hth' : 10 * vertGap b1 e.2 < 8 * m := by
              rw [hke.2]; exact hthk
            rcases scanStep_valid used i b1 m acc e h1' hpc' hth' with hv |
              ⟨j0, d0, hacc0, hle, _⟩
            · have : d ≤ vertGap b1 e.2 :=
                ih2 j d e.1 (vertGap b1 e.2) h (hA.trans (hA ▸ hv))
              rw [← hke.2]
              exact this
            · have : d ≤ d0 := ih2 j d j0 d0 h (hA.trans hacc0)
              rw [← hke.2]
              omega
          · exact ih3 j d h k bk hkt hki hku hpk hthk
      · -- element e taken as the new best candidate
        refine ⟨?_, ?_, ?_⟩
        · intro j d h
          rw [hfold] at h
          rcases ih1 j d h with hacc | ⟨hji, hju, b2, hb2, rest⟩
          · rw [hB] at hacc
            simp only [Option.some.injEq, Prod.mk.injEq] at hacc
            obtain ⟨h1eq, h2eq⟩ := hacc
            subst h1eq
            subst h2eq
            refine Or.inr ⟨hne, hnu, e.2, ?_, hpc, rfl, hth⟩
            exact List.mem_cons_self e t
          · exact Or.inr ⟨hji, hju, b2, List.mem_cons_of_mem e hb2, rest⟩
        · intro j d j0 d0 h hacc
          have hlt := hBacc j0 d0 hacc
          have : d ≤ vertGap b1 e.2 := by
            rw [hfold] at h
            exact ih2 j d e.1 (vertGap b1 e.2) h hB
          omega
        · intro j d h k bk hk hki hku hpk hthk
          rw [hfold] at h
          rcases List.mem_cons.mp hk with heq | hkt
          · have hke : e.2 = bk := by rw [← heq]
            have : d ≤ vertGap b1 e.2 := ih2 j d e.1 (vertGap b1 e.2) h hB
            rw [← hke]
            exact this
          · exact ih3 j d h k bk hkt hki hku hpk hthk

/-- Claim C5 (amended): in the dot-merge pass, for every box `ib.2`
classified small, a merge partner is chosen only among unconsumed
boxes positioned strictly below it whose horizontal center lies within
one parent-width of the parent's horizontal center
(`abs(center₁ - center₂) < w₂` — not necessarily within the parent's
horizontal extent), taking the vertically nearest such box whose gap
is below `0.8 ×` median height; the merged result is the union
bounding box of the pair and both boxes are consumed. Boxes with no
qualifying partner (or not classified small) pass through unchanged. -/
theorem c5_amended (boxes : List Box) (m : ℤ) (sortedIndexed : List (ℕ × Box))
    (st : List Box × Finset ℕ) (ib : ℕ × Box)
    (hix : ∀ p ∈ sortedIndexed, boxes.getD p.1 (Box.mk 0 0 0 0) = p.2)
    (hni : ib.1 ∉ st.2) :
    (isSmallBox m ib.2 →
      ∀ j d, scanBest sortedIndexed st.2 ib.1 ib.2 m = some (j, d) →
        mergeStep boxes m sortedIndexed st ib =
          (st.1 ++ [unionBox ib.2 (boxes.getD j (Box.mk 0 0 0 0))],
            insert ib.1 (insert j st.2)) ∧
        j ≠ ib.1 ∧ j ∉ st.2 ∧
        parentCond ib.2 (boxes.getD j (Box.mk 0 0 0 0)) ∧
        d = vertGap ib.2 (boxes.getD j (Box.mk 0 0 0 0)) ∧
        10 * d < 8 * m ∧
        (∀ k bk, (k, bk) ∈ sortedIndexed → k ≠ ib.1 → k ∉ st.2 →
          parentCond ib.2 bk → 10 * vertGap ib.2 bk < 8 * m →
          d ≤ vertGap ib.2 bk)) ∧
    (¬ isSmallBox m ib.2 ∨ scanBest sortedIndexed st.2 ib.1 ib.2 m = none →
      mergeStep boxes m sortedIndexed st ib = (st.1 ++ [ib.2], insert ib.1 st.2)) := by
  obtain ⟨sp1, sp2, sp3⟩ := scanFold_spec st.2 ib.1 ib.2 m sortedIndexed none
  constructor
  · intro hsmall j d hscan
    have hscan' : sortedIndexed.foldl (scanStep st.2 ib.1 ib.2 m) none
        = some (j, d) := hscan
    rcases sp1 j d hscan' with habs | ⟨hji, hju, b2, hb2mem, hpc, hd, hth⟩
    · exact absurd habs (Option.noConfusion)
    · have hb2 : boxes.getD j (Box.mk 0 0 0 0) = b2 := hix (j, b2) hb2mem
      refine ⟨?_, hji, hju, ?_, ?_, hth, ?_⟩
      · unfold mergeStep
        rw [if_neg hni, if_pos hsmall, hscan]
      · rw [hb2]; exact hpc
      · rw [hb2]; exact hd
      · intro k bk hk hki hku hpk hthk
        exact sp3 j d hscan' k bk hk hki hku hpk hthk
  · intro hcase
    unfold mergeStep
    rw [if_neg hni]
    rcases hcase with hns | hnone
    · rw [if_neg hns]
    · by_cases hsm : isSmallBox m ib.2
      · rw [if_pos hsm, hnone]
      · rw [if_neg hsm]

/-- Claim C5 counterexample: the pass merges a small box with a parent
whose horizontal extent does NOT contain the small box's horizontal
center (center 23 against extent [10, 20]): the partner test is
`abs(center₁ - center₂) < w₂`, not containment in the parent's width. -/
theorem c5_counterexample :
    merge_close_bboxes [Box.mk 22 0 2 2, Box.mk 10 5 10 10] =
      [unionBox (Box.mk 22 0 2 2) (Box.mk 10 5 10 10)] ∧
    unionBox (Box.mk 22 0 2 2) (Box.mk 10 5 10 10) = Box.mk 10 0 14 15 ∧
    ¬((10 : ℚ) ≤ boxCenter (Box.mk 22 0 2 2) ∧
      boxCenter (Box.mk 22 0 2 2) ≤ (10 : ℚ) + 10) := by
  refine ⟨by decide, by decide, ?_⟩
  norm_num [boxCenter]

/-- Claim C5 witness: the amended per-step behavior at a concrete
small box and parent (gap 3, median 10): the merge step emits the
union bounding box and consumes both indices. -/
theorem c5_witness :
    mergeStep [Box.mk 22 0 2 2, Box.mk 10 5 10 10] 10
        (sortByKey (fun p => p.2.y) ([Box.mk 22 0 2 2, Box.mk 10 5 10 10]).enum)
        ([], ∅) (0, Box.mk 22 0 2 2) =
      ([unionBox (Box.mk 22 0 2 2)
          ([Box.mk 22 0 2 2, Box.mk 10 5 10 10].getD 1 (Box.mk 0 0 0 0))],
        insert 0 (insert 1 (∅ : Finset ℕ))) :=
  ((c5_amended [Box.mk 22 0 2 2, Box.mk 10 5 10 10] 10
      (sortByKey (fun p => p.2.y) ([Box.mk 22 0 2 2, Box.mk 10 5 10 10]).enum)
      ([], ∅) (0, Box.mk 22 0 2 2) (by decide) (by decide)).1
    (by decide) 1 3 (by decide)).1

/-! ## Claim C4: winding convention of emitted paths -/

theorem cross_antisymm (a b : ℤ × ℤ) : cross a b = - cross b a := by
  unfold cross
  ring

theorem getD_reverse {α : Type} (l : List α) (d : α) (i : ℕ) (h : i < l.length) :
    l.reverse.getD i d = l.getD (l.length - 1 - i) d := by
  have h' : i < l.reverse.length := by rw [List.length_reverse]; exact h
  rw [List.getD_eq_getElem _ _ h', List.getElem_reverse,
    List.getD_eq_getElem _ _ (by omega)]

theorem revIdx_succ_mod (n a : ℕ) (hpos : 0 < n) (ha : a < n) :
    (n - 1 - (a + 1) % n + 1) % n = n - 1 - a := by
  by_cases hc : a + 1 = n
  · have h1 : (a + 1) % n = 0 := by rw [hc]; exact Nat.mod_self _
    rw [h1]
    have h2 : n - 1 - 0 + 1 = n := by omega
    rw [h2, Nat.mod_self]
    omega
  · have h1 : (a + 1) % n = a + 1 := Nat.mod_eq_of_lt (by omega)
    rw [h1]
    have h2 : n - 1 - (a + 1) + 1 = n - 1 - a := by omega
    rw [h2]
    exact Nat.mod_eq_of_lt (by omega)

/-- Reversing the point order of a polygon negates its shoelace sum. -/
theorem twiceArea_reverse (ps : List (ℤ × ℤ)) :
    twiceArea ps.reverse = - twiceArea ps := by
  rcases Nat.eq_zero_or_pos ps.length with h0 | hpos
  · rw [List.length_eq_zero.mp h0]
    simp [twiceArea]
  · have hrn : ps.reverse.length = ps.length := List.length_reverse ps
    have step1 : twiceArea ps.reverse =
        ∑ i ∈ Finset.range ps.length,
          cross (ps.getD (ps.length - 1 - i) (0, 0))
            (ps.getD (ps.length - 1 - (i + 1) % ps.length) (0, 0)) := by
      unfold twiceArea
      rw [hrn]
      apply Finset.sum_congr rfl
      intro i hi
      rw [Finset.mem_range] at hi
      rw [getD_reverse _ _ _ hi, getD_reverse _ _ _ (Nat.mod_lt _ hpos)]
    rw [step1]
    have step2 : ∑ i ∈ Finset.range ps.length,
          cross (ps.getD (ps.length - 1 - i) (0, 0))
            (ps.getD (ps.length - 1 - (i + 1) % ps.length) (0, 0))
        = ∑ i ∈ Finset.range ps.length,
          - cross (ps.getD i (0, 0)) (ps.getD ((i + 1) % ps.length) (0, 0)) := by
      apply Finset.sum_nbij'
        (fun a => ps.length - 1 - (a + 1) % ps.length)
        (fun a => ps.length - 1 - (a + 1) % ps.length)
      · intro a ha
        rw [Finset.mem_range] at ha ⊢
        omega
      · intro a ha
        rw [Finset.mem_range] at ha ⊢
        omega
      · intro a ha
        rw [Finset.mem_range] at ha
        rw [revIdx_succ_mod _ _ hpos ha]
        have hlt : (a + 1) % ps.length < ps.length := Nat.mod_lt _ hpos
        by_cases hc : a + 1 = ps.length
        · have h1 : (a + 1) % ps.length = 0 := by
            rw [hc]; exact Nat.mod_self _
          omega
        · have h1 : (a + 1) % ps.length = a + 1 := Nat.mod_eq_of_lt (by omega)
          omega
      · intro a ha
        rw [Finset.mem_range] at ha
        rw [revIdx_succ_mod _ _ hpos ha]
        have hlt : (a + 1) % ps.length < ps.length := Nat.mod_lt _ hpos
        by_cases hc : a + 1 = ps.length
        · have h1 : (a + 1) % ps.length = 0 := by
            rw [hc]; exact Nat.mod_self _
          omega
        · have h1 : (a + 1) % ps.length = a + 1 := Nat.mod_eq_of_lt (by omega)
          omega
      · intro a ha
        rw [Finset.mem_range] at ha
        rw [revIdx_succ_mod _ _ hpos ha]
        exact cross_antisymm _ _
    rw [step2, Finset.sum_neg_distrib]
    rfl

theorem polygon_area_reverse (ps : List (ℤ × ℤ)) :
    polygon_area ps.reverse = - polygon_area ps := by
  unfold polygon_area
  rw [twiceArea_reverse]
  push_cast
  ring

/-- After the winding-enforcement step, the signed area of an outer
path is ≤ 0 and that of a hole path is ≥ 0. -/
theorem enforceWinding_sign (isHole : Bool) (ps : List (ℤ × ℤ)) :
    (isHole = false → polygon_area (enforceWinding isHole ps) ≤ 0) ∧
    (isHole = true → 0 ≤ polygon_area (enforceWinding isHole ps)) := by
  unfold enforceWinding
  split
  · rename_i hcond
    rw [polygon_area_reverse]
    rcases hcond with ⟨hh, hpos⟩ | ⟨hh, hneg⟩
    · constructor
      · intro _; linarith
      · intro h1
        rw [hh] at h1
        exact absurd h1 (by simp)
    · constructor
      · intro h1
        rw [hh] at h1
        exact absurd h1 (by simp)
      · intro _; linarith
  · rename_i hcond
    rw [not_or] at hcond
    obtain ⟨h1, h2⟩ := hcond
    constructor
    · intro hh
      by_contra hgt
      push_neg at hgt
      exact h1 ⟨hh, hgt⟩
    · intro hh
      by_contra hlt
      push_neg at hlt
      exact h2 ⟨hh, hlt⟩

/-- Every emitted path is a winding-enforced transformed contour. -/
theorem contourToPath_some (approx : List (ℤ × ℤ) → List (ℤ × ℤ)) (hier : List ℤ)
    (bx byy : ℤ) (scale : ℚ) (ic : ℕ × List (ℤ × ℤ)) (p : FontPath)
    (h : contourToPath approx hier bx byy scale ic = some p) :
    ∃ (ih : Bool) (tr : List (ℤ × ℤ)), p = ⟨enforceWinding ih tr, ih⟩ := by
  unfold contourToPath at h
  by_cases h3 : ic.2.length < 3
  · rw [if_pos h3] at h
    exact absurd h (by simp)
  · rw [if_neg h3] at h
    by_cases h4 : (approx ic.2).length < 3
    · rw [if_pos h4] at h
      exact absurd h (by simp)
    · rw [if_neg h4] at h
      exact ⟨_, _, (Option.some.inj h).symm⟩

/-- Claim C4: for every path emitted by the vectorizer, the winding
convention holds — a path tagged outer (`is_hole = false`) has
non-positive signed shoelace area and a path tagged hole
(`is_hole = true`) has non-negative signed shoelace area, because the
point order is reversed whenever the computed sign disagrees with the
tag. -/
theorem c4_winding (approx : List (ℤ × ℤ) → List (ℤ × ℤ))
    (contours : List (List (ℤ × ℤ))) (hier : List ℤ) :
    (contours_to_font_paths approx contours hier).Forall
      fun p => if p.is_hole = true then 0 ≤ polygon_area p.points
        else polygon_area p.points ≤ 0 := by
  rw [List.forall_iff_forall_mem]
  intro p hp
  unfold contours_to_font_paths at hp
  by_cases h1 : contours = []
  · rw [if_pos h1] at hp
    exact absurd hp (List.not_mem_nil p)
  · rw [if_neg h1] at hp
    by_cases h2 : (boundingRect contours.flatten).2.2.1 = 0 ∨
        (boundingRect contours.flatten).2.2.2 = 0
    · rw [if_pos h2] at hp
      exact absurd hp (List.not_mem_nil p)
    · rw [if_neg h2] at hp
      rcases List.mem_filterMap.mp hp with ⟨ic, _, hsome⟩
      obtain ⟨ih, tr, rfl⟩ := contourToPath_some _ _ _ _ _ _ _ hsome
      obtain ⟨hout, hhole⟩ := enforceWinding_sign ih tr
      cases ih
      · simpa using hout rfl
      · simpa using hhole rfl

/-! ## Claim C8: small-component removal -/

theorem adjacent_symm (p q : ℕ × ℕ) (h : adjacent p q) : adjacent q p := by
  unfold adjacent at h ⊢
  exact ⟨fun he => h.1 he.symm, h.2.2.1, h.2.1, h.2.2.2.2, h.2.2.2.1⟩

theorem subset_grow (fg s : Finset (ℕ × ℕ)) : s ⊆ grow fg s :=
  Finset.subset_union_left

theorem grow_subset (fg s : Finset (ℕ × ℕ)) (h : s ⊆ fg) : grow fg s ⊆ fg :=
  Finset.union_subset h (Finset.filter_subset _ _)

theorem iter_subset_fg (fg s : Finset (ℕ × ℕ)) (h : s ⊆ fg) :
    ∀ n, (grow fg)^[n] s ⊆ fg := by
  intro n
  induction n with
  | zero => exact h
  | succ k ih =>
      rw [Function.iterate_succ_apply']
      exact grow_subset fg _ ih

theorem subset_iterate (fg s : Finset (ℕ × ℕ)) :
    ∀ k, s ⊆ (grow fg)^[k] s := by
  intro k
  induction k with
  | zero => exact subset_of_eq rfl
  | succ j ih =>
      rw [Function.iterate_succ_apply']
      exact ih.trans (subset_grow fg _)

theorem grow_fixed_forever (fg s : Finset (ℕ × ℕ)) (h : grow fg s = s) :
    ∀ k, (grow fg)^[k] s = s := by
  intro k
  induction k with
  | zero => rfl
  | succ j ih =>
      rw [Function.iterate_succ_apply', ih, h]

/-- The component closure is a fixed point of one more expansion step. -/
theorem component_fixed (fg : Finset (ℕ × ℕ)) (p : ℕ × ℕ) (hp : p ∈ fg) :
    grow fg (component fg p) = component fg p := by
  have key : ∃ k ≤ fg.card,
      grow fg ((grow fg)^[k] {p}) = (grow fg)^[k] {p} := by
    by_contra hcon
    push_neg at hcon
    have hcard : ∀ n, n ≤ fg.card → n + 1 ≤ ((grow fg)^[n] {p}).card := by
      intro n
      induction n with
      | zero => intro _; simp
      | succ k ih =>
          intro hk
          have h1 : k + 1 ≤ ((grow fg)^[k] {p}).card := ih (by omega)
          have hssub : (grow fg)^[k] {p} ⊂ (grow fg)^[k + 1] {p} := by
            rw [Function.iterate_succ_apply']
            refine Finset.ssubset_iff_subset_ne.mpr ⟨subset_grow _ _, ?_⟩
            exact fun heq => hcon k (by omega) heq.symm
          have := Finset.card_lt_card hssub
          omega
    have h1 := hcard fg.card le_rfl
    have h2 : ((grow fg)^[fg.card] {p}).card ≤ fg.card :=
      Finset.card_le_card
        (iter_subset_fg fg {p} (Finset.singleton_subset_iff.mpr hp) _)
    omega
  obtain ⟨k, hk, hfix⟩ := key
  have hcomp : component fg p = (grow fg)^[k] {p} := by
    unfold component
    have hsplit : fg.card = (fg.card - k) + k := by omega
    rw [hsplit, Function.iterate_add_apply]
    exact grow_fixed_forever _ _ hfix _
  rw [hcomp]
  exact hfix

theorem iter_subset_component (fg : Finset (ℕ × ℕ)) (p : ℕ × ℕ) (hp : p ∈ fg)
    (n : ℕ) : (grow fg)^[n] {p} ⊆ component fg p := by
  by_cases hn : n ≤ fg.card
  · have hcomp : component fg p = (grow fg)^[(fg.card - n) + n] {p} := by
      unfold component
      congr 1
      omega
    rw [hcomp, Function.iterate_add_apply]
    exact subset_iterate fg _ _
  · push_neg at hn
    have heq : (grow fg)^[n] {p} = component fg p := by
      have hsplit : n = (n - fg.card) + fg.card := by omega
      rw [hsplit, Function.iterate_add_apply]
      exact grow_fixed_forever _ _ (component_fixed fg p hp) _
    rw [heq]

theorem mem_component_self (fg : Finset (ℕ × ℕ)) (p : ℕ × ℕ) :
    p ∈ component fg p :=
  subset_iterate fg {p} fg.card (Finset.mem_singleton_self p)

theorem component_subset_fg (fg : Finset (ℕ × ℕ)) (p : ℕ × ℕ) (hp : p ∈ fg) :
    component fg p ⊆ fg :=
  iter_subset_fg fg {p} (Finset.singleton_subset_iff.mpr hp) _

theorem component_closed (fg : Finset (ℕ × ℕ)) (p : ℕ × ℕ) (hp : p ∈ fg)
    (q r : ℕ × ℕ) (hq : q ∈ component fg p) (hr : r ∈ fg) (ha : adjacent q r) :
    r ∈ component fg p := by
  rw [← component_fixed fg p hp]
  exact Finset.mem_union_right _ (Finset.mem_filter.mpr ⟨hr, q, hq, ha⟩)

theorem component_least (fg : Finset (ℕ × ℕ)) (p : ℕ × ℕ) (C : Finset (ℕ × ℕ))
    (hpC : p ∈ C) (hC : ∀ q ∈ C, ∀ r ∈ fg, adjacent q r → r ∈ C) :
    component fg p ⊆ C := by
  suffices h : ∀ n, (grow fg)^[n] {p} ⊆ C from h fg.card
  intro n
  induction n with
  | zero => exact Finset.singleton_subset_iff.mpr hpC
  | succ k ih =>
      rw [Function.iterate_succ_apply']
      intro x hx
      rcases Finset.mem_union.mp hx with hx1 | hx2
      · exact ih hx1
      · rw [Finset.mem_filter] at hx2
        obtain ⟨hxfg, r, hr, hadj⟩ := hx2
        exact hC r (ih hr) x hxfg hadj

theorem mem_component_symm (fg : Finset (ℕ × ℕ)) (p q : ℕ × ℕ) (hp : p ∈ fg)
    (hq : q ∈ component fg p) : p ∈ component fg q := by
  suffices h : ∀ n, ∀ x ∈ (grow fg)^[n] {p}, p ∈ component fg x from
    h fg.card q hq
  intro n
  induction n with
  | zero =>
      intro x hx
      simp only [Function.iterate_zero_apply, Finset.mem_singleton] at hx
      subst hx
      exact mem_component_self fg x
  | succ k ih =>
      intro x hx
      rw [Function.iterate_succ_apply'] at hx
      rcases Finset.mem_union.mp hx with hx1 | hx2
      · exact ih x hx1
      · rw [Finset.mem_filter] at hx2
        obtain ⟨hxfg, r, hr, hadj⟩ := hx2
        have hpr := ih r hr
        have hrfg : r ∈ fg :=
          iter_subset_fg fg {p} (Finset.singleton_subset_iff.mpr hp) k hr
        have hrx : r ∈ component fg x :=
          component_closed fg x hxfg x r (mem_component_self fg x) hrfg
            (adjacent_symm r x hadj)
        have hsub : component fg r ⊆ component fg x :=
          component_least fg r (component fg x) hrx
            fun a ha b hb hab => component_closed fg x hxfg a b ha hb hab
        exact hsub hpr

theorem component_eq_of_mem (fg : Finset (ℕ × ℕ)) (p q : ℕ × ℕ) (hp : p ∈ fg)
    (hq : q ∈ component fg p) : component fg q = component fg p := by
  have hqfg : q ∈ fg := component_subset_fg fg p hp hq
  apply Finset.Subset.antisymm
  · exact component_least fg q (component fg p) hq
      fun a ha b hb hab => component_closed fg p hp a b ha hb hab
  · exact component_least fg p (component fg q)
      (mem_component_symm fg p q hp hq)
      fun a ha b hb hab => component_closed fg q hqfg a b ha hb hab

theorem removeSmall_subset (A : ℕ) (fg : Finset (ℕ × ℕ)) :
    remove_small_components A fg ⊆ fg :=
  Finset.filter_subset _ _

/-- Whole components survive or die together: for a kept pixel, its
component inside the cleaned mask equals its component inside the
original mask. -/
theorem component_removeSmall_eq (A : ℕ) (fg : Finset (ℕ × ℕ)) (p : ℕ × ℕ)
    (hp : p ∈ remove_small_components A fg) :
    component (remove_small_components A fg) p = component fg p := by
  have hpfg : p ∈ fg := (Finset.mem_filter.mp hp).1
  have hpcard : A ≤ (component fg p).card := (Finset.mem_filter.mp hp).2
  apply Finset.Subset.antisymm
  · exact component_least (remove_small_components A fg) p (component fg p)
      (mem_component_self fg p)
      fun a ha b hb hab =>
        component_closed fg p hpfg a b ha (removeSmall_subset A fg hb) hab
  · suffices h : ∀ n, (grow fg)^[n] {p} ⊆
        component (remove_small_components A fg) p from h fg.card
    intro n
    induction n with
    | zero =>
        exact Finset.singleton_subset_iff.mpr
          (mem_component_self (remove_small_components A fg) p)
    | succ k ih =>
        rw [Function.iterate_succ_apply']
        intro x hx
        rcases Finset.mem_union.mp hx with hx1 | hx2
        · exact ih hx1
        · rw [Finset.mem_filter] at hx2
          obtain ⟨hxfg, r, hr, hadj⟩ := hx2
          have hxin : x ∈ component fg p := by
            apply iter_subset_component fg p hpfg (k + 1)
            rw [Function.iterate_succ_apply']
            exact Finset.mem_union_right _
              (Finset.mem_filter.mpr ⟨hxfg, r, hr, hadj⟩)
          have hxout : x ∈ remove_small_components A fg := by
            refine Finset.mem_filter.mpr ⟨hxfg, ?_⟩
            rw [component_eq_of_mem fg p x hpfg hxin]
            exact hpcard
          exact component_closed (remove_small_components A fg) p hp r x
            (ih hr) hxout hadj

/-- Claim C8: the mask produced by the photo binarization pipeline
contains no 8-connected foreground component of area smaller than 50
pixels — no pixel of the output lies in an output component of area
below 50, every input component of area ≥ 50 is kept whole, and every
pixel of an input component of area below 50 is zeroed out. -/
theorem c8_no_small_components {Img : Type}
    (earlierStages : Img → Finset (ℕ × ℕ)) (img : Img) :
    (preprocess earlierStages img).filter
        (fun p => (component (preprocess earlierStages img) p).card < 50) = ∅ ∧
    (∀ p ∈ earlierStages img, 50 ≤ (component (earlierStages img) p).card →
      component (earlierStages img) p ⊆ preprocess earlierStages img) ∧
    (∀ p ∈ earlierStages img, (component (earlierStages img) p).card < 50 →
      p ∉ preprocess earlierStages img) := by
  have hpre : preprocess earlierStages img
      = remove_small_components 50 (earlierStages img) := rfl
  rw [hpre]
  set fg := earlierStages img
  refine ⟨?_, ?_, ?_⟩
  · rw [Finset.filter_eq_empty_iff]
    intro p hp
    have hc := (Finset.mem_filter.mp hp).2
    rw [component_removeSmall_eq 50 fg p hp]
    omega
  · intro p hp hcard q hq
    refine Finset.mem_filter.mpr ⟨component_subset_fg fg p hp hq, ?_⟩
    rw [component_eq_of_mem fg p q hp hq]
    exact hcard
  · intro p _ hcard hmem
    have := (Finset.mem_filter.mp hmem).2
    omega

/-- Claim C8 witness: the property at a concrete two-pixel mask (whose
single component of size 2 is removed by the 50-pixel floor). -/
theorem c8_witness :
    (preprocess (fun _ : Unit => {(0, 0), (0, 1)}) ()).filter
        (fun p => (component (preprocess (fun _ : Unit => {(0, 0), (0, 1)}) ()) p).card
          < 50) = ∅ ∧
    (∀ p ∈ ({(0, 0), (0, 1)} : Finset (ℕ × ℕ)),
      50 ≤ (component {(0, 0), (0, 1)} p).card →
      component {(0, 0), (0, 1)} p ⊆ preprocess (fun _ : Unit => {(0, 0), (0, 1)}) ()) ∧
    (∀ p ∈ ({(0, 0), (0, 1)} : Finset (ℕ × ℕ)),
      (component {(0, 0), (0, 1)} p).card < 50 →
      p ∉ preprocess (fun _ : Unit => {(0, 0), (0, 1)}) ()) :=
  c8_no_small_components (fun _ : Unit => {(0, 0), (0, 1)}) ()

/-! ## Claims C9 and C10: the single-glyph extractor -/

theorem mem_fgCells (m : Mask) (p : ℕ × ℕ) :
    p ∈ fgCells m ↔ p.1 < m.rows ∧ p.2 < m.cols ∧ m.pix p.1 p.2 ≠ 0 := by
  unfold fgCells
  simp [Finset.mem_filter, Finset.mem_product, Finset.mem_range, and_assoc]

theorem min_untop'_eq (s : Finset ℕ) (hs : s.Nonempty) :
    s.min.untop' 0 = s.min' hs := by
  rw [← Finset.coe_min' hs, WithTop.untop'_coe]

theorem max_unbot'_eq (s : Finset ℕ) (hs : s.Nonempty) :
    s.max.unbot' 0 = s.max' hs := by
  rw [← Finset.coe_max' hs, WithBot.unbot'_coe]

/-- Every foreground cell lies inside the foreground bounding box. -/
theorem fg_bounds (m : Mask) (p : ℕ × ℕ) (hp : p ∈ fgCells m) :
    loY m ≤ p.1 ∧ p.1 ≤ hiY m ∧ loX m ≤ p.2 ∧ p.2 ≤ hiX m := by
  have hne : (fgCells m).Nonempty := ⟨p, hp⟩
  have h1 : ((fgCells m).image Prod.fst).Nonempty := hne.image _
  have h2 : ((fgCells m).image Prod.snd).Nonempty := hne.image _
  unfold loY hiY loX hiX
  rw [min_untop'_eq _ h1, max_unbot'_eq _ h1, min_untop'_eq _ h2,
    max_unbot'_eq _ h2]
  exact ⟨Finset.min'_le _ _ (Finset.mem_image_of_mem _ hp),
    Finset.le_max' _ _ (Finset.mem_image_of_mem _ hp),
    Finset.min'_le _ _ (Finset.mem_image_of_mem _ hp),
    Finset.le_max' _ _ (Finset.mem_image_of_mem _ hp)⟩

/-- The bounding-box extremes are attained inside the grid. -/
theorem fg_extreme (m : Mask) (hne : (fgCells m).Nonempty) :
    hiY m < m.rows ∧ hiX m < m.cols ∧ loY m ≤ hiY m ∧ loX m ≤ hiX m := by
  have h1 : ((fgCells m).image Prod.fst).Nonempty := hne.image _
  have h2 : ((fgCells m).image Prod.snd).Nonempty := hne.image _
  have hy : hiY m ∈ (fgCells m).image Prod.fst := by
    unfold hiY
    rw [max_unbot'_eq _ h1]
    exact Finset.max'_mem _ _
  have hx : hiX m ∈ (fgCells m).image Prod.snd := by
    unfold hiX
    rw [max_unbot'_eq _ h2]
    exact Finset.max'_mem _ _
  obtain ⟨py, hpy, hpy2⟩ := Finset.mem_image.mp hy
  obtain ⟨px, hpx, hpx2⟩ := Finset.mem_image.mp hx
  have hy2 := (mem_fgCells m py).mp hpy
  have hx2 := (mem_fgCells m px).mp hpx
  have hby := fg_bounds m py hpy
  have hbx := fg_bounds m px hpx
  refine ⟨?_, ?_, ?_, ?_⟩ <;> omega

theorem contentH_le_side (m : Mask) : contentH m ≤ canvasSide m := by
  have := le_max_right (contentW m) (contentH m)
  unfold canvasSide
  omega

theorem contentW_le_side (m : Mask) : contentW m ≤ canvasSide m := by
  have := le_max_left (contentW m) (contentH m)
  unfold canvasSide
  omega

theorem offY_add_le (m : Mask) : offY m + contentH m ≤ canvasSide m := by
  have h1 := Nat.div_le_self (canvasSide m - contentH m) 2
  have h2 := contentH_le_side m
  unfold offY
  omega

theorem offX_add_le (m : Mask) : offX m + contentW m ≤ canvasSide m := by
  have h1 := Nat.div_le_self (canvasSide m - contentW m) 2
  have h2 := contentW_le_side m
  unfold offX
  omega

/-- Claim C9: the single-glyph extractor returns the mask unchanged
when there are no foreground pixels; otherwise it returns a square
canvas of side `max(content width, content height) + 20`, holding the
content crop translated to offsets `(side − h) / 2` and
`(side − w) / 2`, with zeros everywhere else. -/
theorem c9_extract_spec (m : Mask) :
    (fgCells m = ∅ → extract_single_glyph m = m) ∧
    (fgCells m ≠ ∅ →
      (extract_single_glyph m).rows = canvasSide m ∧
      (extract_single_glyph m).cols = canvasSide m ∧
      (∀ i j : ℕ, i < contentH m → j < contentW m →
        (extract_single_glyph m).pix (offY m + i) (offX m + j)
          = m.pix (loY m + i) (loX m + j)) ∧
      (∀ q r : ℕ,
        ¬(offY m ≤ q ∧ q < offY m + contentH m ∧
          offX m ≤ r ∧ r < offX m + contentW m) →
        (extract_single_glyph m).pix q r = 0)) := by
  constructor
  · intro h
    unfold extract_single_glyph
    rw [if_pos h]
  · intro h
    unfold extract_single_glyph
    rw [if_neg h]
    refine ⟨rfl, rfl, ?_, ?_⟩
    · intro i j hi hj
      show (if offY m ≤ offY m + i ∧ offY m + i < offY m + contentH m ∧
          offX m ≤ offX m + j ∧ offX m + j < offX m + contentW m then
            m.pix (loY m + (offY m + i - offY m)) (loX m + (offX m + j - offX m))
          else 0) = m.pix (loY m + i) (loX m + j)
      rw [if_pos (by omega)]
      have e1 : offY m + i - offY m = i := by omega
      have e2 : offX m + j - offX m = j := by omega
      rw [e1, e2]
    · intro q r hout
      show (if offY m ≤ q ∧ q < offY m + contentH m ∧
          offX m ≤ r ∧ r < offX m + contentW m then
            m.pix (loY m + (q - offY m)) (loX m + (r - offX m))
          else 0) = 0
      rw [if_neg hout]

/-- Claim C9 witness: the canvas-shape equation at a concrete 3×4 mask
with a single foreground pixel (canvas side 21). -/
theorem c9_witness :
    (extract_single_glyph
        (Mask.mk 3 4 fun q r => if q = 1 ∧ r = 1 then 255 else 0)).rows
      = canvasSide (Mask.mk 3 4 fun q r => if q = 1 ∧ r = 1 then 255 else 0) :=
  ((c9_extract_spec (Mask.mk 3 4 fun q r => if q = 1 ∧ r = 1 then 255 else 0)).2
    (by decide)).1

/-- The multiset of foreground pixel values of a mask. -/
def fgVals (m : Mask) : Multiset ℕ := (fgCells m).val.map fun p => m.pix p.1 p.2

/-- The translation sending an input foreground cell to its position
on the output canvas of `extract_single_glyph`. -/
def shiftCell (m : Mask) (p : ℕ × ℕ) : ℕ × ℕ :=
  (p.1 - loY m + offY m, p.2 - loX m + offX m)

/-- The foreground of the extracted mask is exactly the translated
foreground of the input. -/
theorem fgCells_extract (m : Mask) (h : fgCells m ≠ ∅) :
    fgCells (extract_single_glyph m) = (fgCells m).image (shiftCell m) := by
  have hne : (fgCells m).Nonempty := Finset.nonempty_iff_ne_empty.mpr h
  obtain ⟨hrow, hcol, hyle, hxle⟩ := fg_extreme m hne
  have hrows : (extract_single_glyph m).rows = canvasSide m := by
    unfold extract_single_glyph
    rw [if_neg h]
    rfl
  have hcols : (extract_single_glyph m).cols = canvasSide m := by
    unfold extract_single_glyph
    rw [if_neg h]
    rfl
  have hpix : ∀ q r : ℕ, (extract_single_glyph m).pix q r =
      (if offY m ≤ q ∧ q < offY m + contentH m ∧
          offX m ≤ r ∧ r < offX m + contentW m then
        m.pix (loY m + (q - offY m)) (loX m + (r - offX m))
      else 0) := by
    intro q r
    unfold extract_single_glyph
    rw [if_neg h]
    rfl
  apply Finset.ext
  intro q
  constructor
  · intro hq
    obtain ⟨hq1, hq2, hq3⟩ := (mem_fgCells _ q).mp hq
    rw [hpix q.1 q.2] at hq3
    by_cases hwin : offY m ≤ q.1 ∧ q.1 < offY m + contentH m ∧
        offX m ≤ q.2 ∧ q.2 < offX m + contentW m
    · rw [if_pos hwin] at hq3
      refine Finset.mem_image.mpr
        ⟨(loY m + (q.1 - offY m), loX m + (q.2 - offX m)), ?_, ?_⟩
      · rw [mem_fgCells]
        refine ⟨?_, ?_, hq3⟩
        · have : contentH m = hiY m - loY m + 1 := rfl
          omega
        · have : contentW m = hiX m - loX m + 1 := rfl
          omega
      · unfold shiftCell
        have e1 : loY m + (q.1 - offY m) - loY m + offY m = q.1 := by omega
        have e2 : loX m + (q.2 - offX m) - loX m + offX m = q.2 := by omega
        rw [e1, e2]
    · rw [if_neg hwin] at hq3
      exact absurd rfl hq3
  · intro hq
    obtain ⟨p, hp, rfl⟩ := Finset.mem_image.mp hq
    obtain ⟨hb1, hb2, hb3, hb4⟩ := fg_bounds m p hp
    obtain ⟨hp1, hp2, hp3⟩ := (mem_fgCells m p).mp hp
    have hoy := offY_add_le m
    have hox := offX_add_le m
    have hch : contentH m = hiY m - loY m + 1 := rfl
    have hcw : contentW m = hiX m - loX m + 1 := rfl
    rw [mem_fgCells, hrows, hcols, hpix]
    unfold shiftCell
    refine ⟨by omega, by omega, ?_⟩
    rw [if_pos (by omega)]
    have e1 : loY m + (p.1 - loY m + offY m - offY m) = p.1 := by omega
    have e2 : loX m + (p.2 - loX m + offX m - offX m) = p.2 := by omega
    rw [e1, e2]
    exact hp3

/-- Claim C10: the single-glyph extractor never loses or creates ink —
the multiset of foreground pixel values of the output equals that of
the input (the crop captures all foreground pixels and the paste is a
pure translation); in particular the foreground pixel count is
unchanged. -/
theorem c10_ink_preserved (m : Mask) :
    fgVals (extract_single_glyph m) = fgVals m ∧
    (fgCells (extract_single_glyph m)).card = (fgCells m).card := by
  by_cases h : fgCells m = ∅
  · have : extract_single_glyph m = m := by
      unfold extract_single_glyph
      rw [if_pos h]
    rw [this]
    exact ⟨rfl, rfl⟩
  · have hne : (fgCells m).Nonempty := Finset.nonempty_iff_ne_empty.mpr h
    obtain ⟨hrow, hcol, hyle, hxle⟩ := fg_extreme m hne
    have hinj : ∀ p ∈ fgCells m, ∀ q ∈ fgCells m,
        shiftCell m p = shiftCell m q → p = q := by
      intro p hp q hq heq
      obtain ⟨hb1, _, hb3, _⟩ := fg_bounds m p hp
      obtain ⟨hc1, _, hc3, _⟩ := fg_bounds m q hq
      unfold shiftCell at heq
      rw [Prod.mk.injEq] at heq
      have := heq.1
      have := heq.2
      rcases p with ⟨p1, p2⟩
      rcases q with ⟨q1, q2⟩
      simp only at *
      rw [Prod.mk.injEq]
      omega
    have hval : ∀ p ∈ fgCells m,
        (extract_single_glyph m).pix (shiftCell m p).1 (shiftCell m p).2
          = m.pix p.1 p.2 := by
      intro p hp
      obtain ⟨hb1, hb2, hb3, hb4⟩ := fg_bounds m p hp
      have hch : contentH m = hiY m - loY m + 1 := rfl
      have hcw : contentW m = hiX m - loX m + 1 := rfl
      have hpix : (extract_single_glyph m).pix (shiftCell m p).1 (shiftCell m p).2 =
          (if offY m ≤ (shiftCell m p).1 ∧
              (shiftCell m p).1 < offY m + contentH m ∧
              offX m ≤ (shiftCell m p).2 ∧
              (shiftCell m p).2 < offX m + contentW m then
            m.pix (loY m + ((shiftCell m p).1 - offY m))
              (loX m + ((shiftCell m p).2 - offX m))
          else 0) := by
        unfold extract_single_glyph
        rw [if_neg h]
        rfl
      rw [hpix]
      unfold shiftCell
      rw [if_pos (by dsimp only; omega)]
      dsimp only
      have e1 : loY m + (p.1 - loY m + offY m - offY m) = p.1 := by omega
      have e2 : loX m + (p.2 - loX m + offX m - offX m) = p.2 := by omega
      rw [e1, e2]
    have hnodup : ((fgCells m).val.map (shiftCell m)).Nodup :=
      Multiset.Nodup.map_on
        (fun x hx y hy => hinj x hx y hy) (fgCells m).nodup
    have hkey := fgCells_extract m h
    constructor
    · unfold fgVals
      rw [hkey, Finset.image_val, Multiset.dedup_eq_self.mpr hnodup,
        Multiset.map_map]
      apply Multiset.map_congr rfl
      intro p hp
      exact hval p hp
    · rw [hkey, Finset.card_image_of_injOn fun x hx y hy => hinj x hx y hy]

end HandFont
